import Mathlib

/-!
Verification development for the FounderGPT retrieval pipeline
(`backend/query_processor.py`, `backend/vector_search.py`,
`backend/cohere_utils.py`, `config/settings.py`).

The Python code is shallowly embedded: strings are Lean `String`s,
Python floats are modelled as `ℚ`, fallible provider calls as `Except`,
and Python's unordered-`set` enumeration as an explicit enumeration
function constrained to produce a permutation of the de-duplicated
element list.  Loops whose Python form is a `while` are embedded with an
explicit fuel argument that provably suffices (each guarded iteration
consumes at least one element, so fuel equal to the element count makes
the embedded loop reach the same exit condition as the source loop).
-/

namespace PyStr

/-- Python whitespace class `\s` restricted to the ASCII range
(the characters Python's `str.strip`/`re` treat as whitespace). -/
def isSpace (c : Char) : Bool :=
  c == ' ' || c == '\t' || c == '\n' || c == '\r' || c == '\x0b' || c == '\x0c'

/-- Python word-character class `\w` restricted to the ASCII range. -/
def isWordChar (c : Char) : Bool :=
  c.isAlphanum || c == '_'

/-- `str.strip()` on a character list: drop leading and trailing whitespace. -/
def stripL (l : List Char) : List Char :=
  ((l.dropWhile isSpace).reverse.dropWhile isSpace).reverse

/-- `str.strip()`. -/
def strip (s : String) : String :=
  ⟨stripL s.toList⟩

/-- `str.lower()` (ASCII case folding). -/
def lower (s : String) : String :=
  ⟨s.toList.map Char.toLower⟩

/-- Python's substring test `sub in s` on character lists. -/
def containsL (s sub : List Char) : Bool :=
  match s with
  | [] => sub.isEmpty
  | _ :: rest => sub.isPrefixOf s || containsL rest sub

/-- Python's substring test `sub in s`. -/
def containsSub (s sub : String) : Bool :=
  containsL s.toList sub.toList

/-- `str.replace(pat, rep)`: replace every non-overlapping occurrence,
scanning left to right and not rescanning the replacement.  The fuel is
the length of the subject string; every step consumes at least one
character, so the fuel never runs out when initialised that way. -/
def replaceAllAux (pat rep : List Char) : Nat → List Char → List Char
  | 0, s => s
  | _ + 1, [] => []
  | fuel + 1, s@(c :: rest) =>
    if pat ≠ [] ∧ pat.isPrefixOf s then
      rep ++ replaceAllAux pat rep fuel (s.drop pat.length)
    else
      c :: replaceAllAux pat rep fuel rest

/-- `str.replace(pat, rep)` (total-string form). -/
def replaceAll (s pat rep : String) : String :=
  ⟨replaceAllAux pat.toList rep.toList s.toList.length s.toList⟩

/-- `str.split(sep)` for a one-character separator; empty parts are kept,
exactly as in Python. -/
def splitCharL (sep : Char) : List Char → List (List Char)
  | [] => [[]]
  | c :: rest =>
    match splitCharL sep rest with
    | [] => [[c]]
    | p :: ps => if c == sep then [] :: p :: ps else (c :: p) :: ps

/-- `str.count(ch)` for a single character. -/
def countChar (s : String) (ch : Char) : Nat :=
  s.toList.countP (fun c => c == ch)

/-- `len(s) > n` comparisons use the character count, as in Python. -/
def pyLen (s : String) : Nat := s.toList.length

/-- Whether the first character of the list exists and is whitespace. -/
def headIsSpace : List Char → Bool
  | c :: _ => isSpace c
  | [] => false

end PyStr

namespace QueryProcessor

open PyStr

/-- `QueryProcessor.synonym_map` — insertion-ordered, as a Python dict is. -/
def synonym_map : List (String × List String) :=
  [ ("validate", ["test", "verify", "check", "confirm", "prove"])
  , ("customer", ["user", "buyer", "client", "consumer", "market"])
  , ("product", ["solution", "offering", "service", "MVP", "prototype"])
  , ("startup", ["company", "business", "venture", "enterprise"])
  , ("founder", ["entrepreneur", "CEO", "leader", "owner"])
  , ("growth", ["scale", "expansion", "traction", "momentum"])
  , ("hire", ["recruit", "employ", "onboard", "team building"])
  , ("funding", ["investment", "capital", "financing", "raise money"])
  , ("pivot", ["change direction", "adapt", "shift strategy"])
  , ("market", ["segment", "audience", "niche", "vertical"])
  , ("feedback", ["input", "response", "reaction", "criticism"])
  , ("idea", ["concept", "hypothesis", "vision", "proposal"])
  , ("problem", ["pain point", "challenge", "issue", "obstacle"])
  , ("revenue", ["income", "sales", "monetization", "earnings"])
  , ("competition", ["competitors", "rivals", "alternatives"])
  , ("two-sided market", ["marketplace", "platform", "network effects", "chicken and egg"])
  , ("b2b", ["enterprise", "business to business", "sales"])
  , ("d2c", ["direct to consumer", "ecommerce", "brand"]) ]

/-- The `for term, synonyms in self.synonym_map.items()` loop of
`_expand_with_synonyms`: the first vocabulary term found as a substring
triggers one inline substitution, then the scan stops (`break`). -/
def synonymScan : List (String × List String) → String → String
  | [], expanded => expanded
  | (term, synonyms) :: rest, expanded =>
    if containsSub expanded term then
      replaceAll expanded term (term ++ " " ++ synonyms.headD "")
    else
      synonymScan rest expanded

/-- `QueryProcessor._expand_with_synonyms`. -/
def expand_with_synonyms (query : String) : String :=
  synonymScan synonym_map (lower query)

/-- Match a literal at the start of the input; on success return the rest. -/
def matchLit (lit : List Char) (s : List Char) : Option (List Char) :=
  if lit.isPrefixOf s then some (s.drop lit.length) else none

/-- Match one of the given literal alternatives followed by `\s+`
(at least one whitespace character, consumed greedily); regex
alternation tries the alternatives left to right. -/
def matchAltWs : List (List Char) → List Char → Option (List Char)
  | [], _ => none
  | a :: rest, s =>
    if a.isPrefixOf s then
      match s.drop a.length with
      | c :: t => if isSpace c then some ((c :: t).dropWhile isSpace) else matchAltWs rest s
      | [] => matchAltWs rest s
    else matchAltWs rest s

/-- Anchored matcher for `^how (do|can|should|would|to)\s+`. -/
def matchHowConcept (s : List Char) : Option (List Char) :=
  (matchLit "how ".toList s).bind
    (matchAltWs ["do".toList, "can".toList, "should".toList, "would".toList, "to".toList])

/-- Anchored matcher for `^what (is|are|should|would)\s+`. -/
def matchWhatConcept (s : List Char) : Option (List Char) :=
  (matchLit "what ".toList s).bind
    (matchAltWs ["is".toList, "are".toList, "should".toList, "would".toList])

/-- Anchored matcher for `^why (do|does|is|are|should)\s+`. -/
def matchWhyConcept (s : List Char) : Option (List Char) :=
  (matchLit "why ".toList s).bind
    (matchAltWs ["do".toList, "does".toList, "is".toList, "are".toList, "should".toList])

/-- Anchored matcher for `^when (should|do|does|is)\s+`. -/
def matchWhenConcept (s : List Char) : Option (List Char) :=
  (matchLit "when ".toList s).bind
    (matchAltWs ["should".toList, "do".toList, "does".toList, "is".toList])

/-- `re.sub(p, "", s)` for an anchored pattern: strip the match if any. -/
def subAnchored (m : List Char → Option (List Char)) (s : List Char) : List Char :=
  match m s with
  | some r => r
  | none => s

/-- `re.sub(r"\bw\s+", "", s)`: delete every standalone occurrence of the
word `w` followed by whitespace.  `prevWord` tracks whether the previous
character was a word character (for the `\b` boundary); scanning resumes
after each deleted match, as `re.sub` does.  Fuel is the input length. -/
def subWordWsAux (w : List Char) : Nat → Bool → List Char → List Char
  | 0, _, s => s
  | _ + 1, _, [] => []
  | fuel + 1, prevWord, s@(c :: rest) =>
    if !prevWord && w.isPrefixOf s && headIsSpace (s.drop w.length) then
      subWordWsAux w fuel false ((s.drop w.length).dropWhile isSpace)
    else
      c :: subWordWsAux w fuel (isWordChar c) rest

/-- `re.sub(r"\bw\s+", "", s)` from the start of the string. -/
def subWordWs (w : String) (s : List Char) : List Char :=
  subWordWsAux w.toList s.length false s

/-- `QueryProcessor._extract_key_concepts`: lower-case the query, strip the
leading question-word patterns, delete the filler words, then strip. -/
def extract_key_concepts (query : String) : String :=
  let c0 := (lower query).toList
  let c1 := subAnchored matchHowConcept c0
  let c2 := subAnchored matchWhatConcept c1
  let c3 := subAnchored matchWhyConcept c2
  let c4 := subAnchored matchWhenConcept c3
  let c5 := subWordWs "i" c4
  let c6 := subWordWs "my" c5
  let c7 := subWordWs "we" c6
  let c8 := subWordWs "our" c7
  let c9 := subWordWs "the" c8
  let c10 := subWordWs "a" c9
  let c11 := subWordWs "an" c10
  ⟨stripL c11⟩

/-- Anchored matcher for `^how (do|can|should|would|to)\s+i?\s*`
(used by `_reformulate_query`): after the greedy `\s+`, an optional
literal `i` is consumed if present, then `\s*` greedily. -/
def matchHowReform (s : List Char) : Option (List Char) :=
  (matchHowConcept s).map (fun r =>
    match r with
    | 'i' :: r' => r'.dropWhile isSpace
    | _ => r)

/-- Anchored matcher for `^what (is|are|should|would)\s+(the\s+)?`:
the optional group is taken only when `the` is followed by whitespace. -/
def matchWhatReform (s : List Char) : Option (List Char) :=
  (matchWhatConcept s).map (fun r =>
    if "the".toList.isPrefixOf r && headIsSpace (r.drop 3) then
      (r.drop 3).dropWhile isSpace
    else r)

/-- `QueryProcessor._reformulate_query`. -/
def reformulate_query (query : String) : List String :=
  let query_lower := lower query
  let hows : List String :=
    if "how".toList.isPrefixOf query_lower.toList then
      let statement : String := ⟨subAnchored matchHowReform query_lower.toList⟩
      if statement ≠ query_lower then ["best practices for " ++ statement] else []
    else []
  let whats : List String :=
    if "what".toList.isPrefixOf query_lower.toList then
      let action : String := ⟨subAnchored matchWhatReform query_lower.toList⟩
      if action ≠ query_lower then [action] else []
    else []
  let startups : List String :=
    if ¬containsSub query_lower "startup" ∧ ¬containsSub query_lower "founder" then
      ["startup " ++ query]
    else []
  hows ++ whats ++ startups

/-- One step of `re.split(r"\s+and\s+", query, flags=re.IGNORECASE)`:
at a whitespace run followed by a case-insensitive `and` and further
whitespace, a split occurs covering the whole `\s+and\s+` match.
Fuel is the input length plus one; every step consumes at least one
character of the subject. -/
def splitAndAux : Nat → List Char → List Char → List (List Char)
  | 0, acc, s => [acc.reverse ++ s]
  | _ + 1, acc, [] => [acc.reverse]
  | fuel + 1, acc, s@(c :: rest) =>
    if isSpace c then
      let afterWs := s.dropWhile isSpace
      if ((afterWs.take 3).map Char.toLower == "and".toList) && headIsSpace (afterWs.drop 3) then
        acc.reverse :: splitAndAux fuel [] ((afterWs.drop 3).dropWhile isSpace)
      else
        splitAndAux fuel (c :: acc) rest
    else
      splitAndAux fuel (c :: acc) rest

/-- `re.split(r"\s+and\s+", query, flags=re.IGNORECASE)`. -/
def splitAnd (query : String) : List String :=
  (splitAndAux (query.toList.length + 1) [] query.toList).map (fun l => (⟨l⟩ : String))

/-- `QueryProcessor._decompose_complex_query`. -/
def decompose_complex_query (query : String) : List String :=
  let fromAnd : List String :=
    if containsSub (lower query) " and " then
      (splitAnd query).filterMap (fun part =>
        let part := strip part
        if pyLen part > 10 then some part else none)
    else []
  let fromQm : List String :=
    if countChar query '?' > 1 then
      let questions := (splitCharL '?' query.toList).filterMap (fun q =>
        let t := stripL q
        if t ≠ [] then some ((⟨t⟩ : String) ++ "?") else none)
      questions.dropLast
    else []
  fromAnd ++ fromQm

/-- The elements inserted into the `queries` set by
`QueryProcessor.expand_query`, in program order (the set collapses
duplicates; order is irrelevant because every use below is modulo an
enumeration of the set). -/
def expandCandidates (query : String) : List String :=
  [query, expand_with_synonyms query]
    ++ (let concepts := extract_key_concepts query
        if concepts ≠ "" then [concepts] else [])
    ++ reformulate_query query
    ++ decompose_complex_query query
    ++ [query ++ " case study", query ++ " real world example", query ++ " how they did it"]

/-- The set comprehension `[q.strip() for q in queries if q.strip()]`
composed with the outer `set(...)`: the multiset of stripped, non-blank
candidates (to be enumerated in an unspecified order and de-duplicated). -/
def expandResultSet (query : String) : List String :=
  ((expandCandidates query).map strip).filter (fun s => s ≠ "")

/-- `QueryProcessor.expand_query`.  `list(set(result))[:8]` enumerates a
Python set in an unspecified, hash-dependent order; the enumeration is
therefore an explicit parameter `enum`, constrained in the theorems to
produce a permutation of the de-duplicated element list. -/
def expand_query (query : String) (enum : List String → List String) : List String :=
  (enum (expandResultSet query)).take 8

end QueryProcessor

namespace VectorSearch

/-- The payload stored with each point in the Qdrant collection (the keys
read by `VectorSearch._search_with_embedding`).  `exact_text` is always
written by the ingestion pipeline, so it is modelled as a total string;
the remaining keys may be absent or null. -/
structure Payload where
  resource_type : Option String
  source_file : Option String
  exact_text : String
  book_title : Option String
  author : Option String
  page_number : Option Int
  chapter : Option String
  article_title : Option String
  authors : Option String
  url : Option String
  section_heading : Option String
deriving DecidableEq, Repr

/-- A scored point returned by the vector index. -/
structure QdrantPoint where
  score : ℚ
  payload : Payload
deriving DecidableEq, Repr

/-- The chunk dictionary flowing through the pipeline.  `match_count` and
`rerank_score` are keys added later by merge and rerank, hence optional.
Similarity scores (Python floats) are modelled as rationals. -/
structure Chunk where
  score : ℚ
  resource_type : Option String
  source_file : Option String
  exact_text : String
  book_title : Option String
  author : Option String
  page_number : Option Int
  chapter : Option String
  article_title : Option String
  authors : Option String
  url : Option String
  section_heading : Option String
  match_count : Option Nat
  rerank_score : Option ℚ
deriving DecidableEq, Repr

/-- The chunk dictionary built from one search result in
`_search_with_embedding`. -/
def chunkOfPoint (p : QdrantPoint) : Chunk :=
  { score := p.score
  , resource_type := p.payload.resource_type
  , source_file := p.payload.source_file
  , exact_text := p.payload.exact_text
  , book_title := p.payload.book_title
  , author := p.payload.author
  , page_number := p.payload.page_number
  , chapter := p.payload.chapter
  , article_title := p.payload.article_title
  , authors := p.payload.authors
  , url := p.payload.url
  , section_heading := p.payload.section_heading
  , match_count := none
  , rerank_score := none }

/-- A placeholder chunk (used only for the out-of-range case of a list
index; provider rerank responses are assumed to return in-range indices). -/
def defaultChunk : Chunk :=
  { score := 0, resource_type := none, source_file := none, exact_text := ""
  , book_title := none, author := none, page_number := none, chapter := none
  , article_title := none, authors := none, url := none, section_heading := none
  , match_count := none, rerank_score := none }

/-- `_search_with_embedding`: a transport/index error is caught and yields
an empty result list; otherwise each returned point becomes a chunk. -/
def searchWithEmbedding (res : Except Unit (List QdrantPoint)) : List Chunk :=
  match res with
  | .error _ => []
  | .ok pts => pts.map chunkOfPoint

/-- The deduplication key of `_merge_results`:
`hash(text[:200])`.  Python's string hash is an unspecified function of
the text, so it is a parameter `h`. -/
def chunkKey (h : String → Int) (c : Chunk) : Int :=
  h ⟨c.exact_text.toList.take 200⟩

/-- Lookup in the insertion-ordered association list modelling the
`seen_texts` dict. -/
def dlookup (k : Int) : List (Int × Chunk) → Option Chunk
  | [] => none
  | (k', c) :: rest => if k' = k then some c else dlookup k rest

/-- Update the entry with the given key in the `seen_texts` dict. -/
def dupdate (k : Int) (f : Chunk → Chunk) : List (Int × Chunk) → List (Int × Chunk)
  | [] => []
  | (k', c) :: rest =>
    if k' = k then (k', f c) :: rest else (k', c) :: dupdate k f rest

/-- One iteration of the `for chunk in all_results` loop of
`_merge_results`: on a key collision the existing entry's score becomes
the mean of the two scores and `match_count` increments; otherwise the
chunk is inserted with `match_count = 1`. -/
def mergeStep (h : String → Int) (seen : List (Int × Chunk)) (c : Chunk) :
    List (Int × Chunk) :=
  match dlookup (chunkKey h c) seen with
  | some _ =>
    dupdate (chunkKey h c) (fun e =>
      { e with score := (e.score + c.score) / 2
             , match_count := some (e.match_count.getD 1 + 1) }) seen
  | none => seen ++ [(chunkKey h c, { c with match_count := some 1 })]

/-- Python tuple comparison `(mc a, score a) > (mc b, score b)` used by the
descending sort of `_merge_results` (`x.get("match_count", 1)` defaults to
1, though every merged entry carries the key). -/
def sortKeyGT (a b : Chunk) : Bool :=
  (b.match_count.getD 1 < a.match_count.getD 1) ||
    (a.match_count.getD 1 == b.match_count.getD 1 && b.score < a.score)

/-- Insert into a descending-sorted list after all entries whose key is
greater than or equal (so that the overall sort is stable, like Python's). -/
def insertDesc (c : Chunk) : List Chunk → List Chunk
  | [] => [c]
  | y :: ys => if sortKeyGT c y then c :: y :: ys else y :: insertDesc c ys

/-- `merged.sort(key=..., reverse=True)`: stable descending sort. -/
def sortDesc (l : List Chunk) : List Chunk :=
  l.foldl (fun acc c => insertDesc c acc) []

/-- `VectorSearch._merge_results`. -/
def merge_results (h : String → Int) (all_results : List Chunk) : List Chunk :=
  sortDesc ((all_results.foldl (mergeStep h) []).map Prod.snd)

/-- `VectorSearch._rerank_with_cohere`.  The provider call is a parameter
returning an `Except` of `(index, relevance_score)` pairs.  On any
failure the first `top_k * 2` chunks of the pre-rerank order are
returned. -/
def rerank_with_cohere (enabled : Bool)
    (rerankCall : String → List String → Nat → Except Unit (List (Nat × ℚ)))
    (original_query : String) (chunks : List Chunk) (top_k : Nat) : List Chunk :=
  if enabled = false ∨ chunks = [] then chunks.take top_k
  else
    match rerankCall original_query (chunks.map Chunk.exact_text)
        (min top_k (chunks.map Chunk.exact_text).length) with
    | .ok results =>
      results.map (fun r => { chunks.getD r.1 defaultChunk with rerank_score := some r.2 })
    | .error _ => chunks.take (top_k * 2)

/-- The grouping key of `_apply_diversity`:
`chunk.get("source_file") or chunk.get("book_title") or
chunk.get("article_title") or "unknown"` (Python `or` skips null and
empty strings). -/
def orStr (o : Option String) (fallback : String) : String :=
  match o with
  | some s => if s = "" then fallback else s
  | none => fallback

/-- The source identifier a chunk is grouped under. -/
def sourceKey (c : Chunk) : String :=
  orStr c.source_file (orStr c.book_title (orStr c.article_title "unknown"))

/-- Append a chunk to its source group, creating the group at the end on
first encounter (defaultdict insertion order). -/
def addToGroups (gs : List (String × List Chunk)) (key : String) (c : Chunk) :
    List (String × List Chunk) :=
  match gs with
  | [] => [(key, [c])]
  | (k, cs) :: rest =>
    if k = key then (k, cs ++ [c]) :: rest else (k, cs) :: addToGroups rest key c

/-- The `groups` defaultdict of `_apply_diversity`, in encounter order. -/
def buildGroups (remaining : List Chunk) : List (String × List Chunk) :=
  remaining.foldl (fun gs c => addToGroups gs (sourceKey c) c) []

/-- All chunks still held by the groups, in group order. -/
def allElems (gs : List (String × List Chunk)) : List Chunk :=
  (gs.map Prod.snd).flatten

/-- Total number of chunks still held by the groups. -/
def totalSize (gs : List (String × List Chunk)) : Nat :=
  (allElems gs).length

/-- One `for key in keys` pass of the round-robin loop: each non-empty
group yields its head chunk into the pool while the pool is below the
slot limit. -/
def rrPass (limit : Nat) :
    List (String × List Chunk) → List Chunk → (List (String × List Chunk)) × List Chunk
  | [], pool => ([], pool)
  | (k, cs) :: rest, pool =>
    match cs with
    | c :: cs' =>
      if pool.length < limit then
        let (rest', pool') := rrPass limit rest (pool ++ [c])
        ((k, cs') :: rest', pool')
      else
        let (rest', pool') := rrPass limit rest pool
        ((k, cs) :: rest', pool')
    | [] =>
      let (rest', pool') := rrPass limit rest pool
      ((k, []) :: rest', pool')

/-- The `while len(diverse_pool) < (top_k - 3) and any(groups.values())`
loop.  Each guarded iteration moves at least one chunk out of the groups,
so fuel equal to the initial total group size is enough for the embedded
loop to reach the same exit condition as the source loop. -/
def rrLoop (limit : Nat) : Nat → List (String × List Chunk) → List Chunk → List Chunk
  | 0, _, pool => pool
  | fuel + 1, groups, pool =>
    if pool.length < limit ∧ groups.any (fun g => !g.2.isEmpty) then
      let (groups', pool') := rrPass limit groups pool
      rrLoop limit fuel groups' pool'
    else pool

/-- `VectorSearch._apply_diversity`: keep the top three chunks
unconditionally and fill the remaining `top_k - 3` slots round-robin
across sources. -/
def apply_diversity (chunks : List Chunk) (top_k : Nat) : List Chunk :=
  if chunks = [] then []
  else
    chunks.take 3 ++
      (if chunks.drop 3 = [] then []
       else
         rrLoop (top_k - 3) (totalSize (buildGroups (chunks.drop 3)))
           (buildGroups (chunks.drop 3)) [])

/-- The concatenated per-query retrieval results of `VectorSearch.search`
(the `all_results` list): each expanded query is searched with a fetch
limit of `top_k * 2`, and a failed search contributes an empty list. -/
def allCandidates (retrieve : String → Nat → Except Unit (List QdrantPoint))
    (queries : List String) (top_k : Nat) : List Chunk :=
  (queries.map (fun q => searchWithEmbedding (retrieve q (top_k * 2)))).flatten

/-- `VectorSearch.search`.  Modelled from the spec:
`CohereEmbedder.embed_queries`, which `search` invokes to batch-embed the
expanded query set, is absent from the source (see the theorem on
`CohereUtils.cohereEmbedderMethods`); following the spec's description –
one batched query-mode embedding, then one index search per embedding –
the embedding plus index search for one query is folded into the abstract
per-query retriever `retrieve`.  Everything downstream is translated
directly from the source. -/
def searchPipeline (h : String → Int) (enabled : Bool)
    (rerankCall : String → List String → Nat → Except Unit (List (Nat × ℚ)))
    (retrieve : String → Nat → Except Unit (List QdrantPoint))
    (query : String) (top_k : Nat) (enum : List String → List String) : List Chunk :=
  apply_diversity
    (rerank_with_cohere enabled rerankCall query
      (merge_results h
        (allCandidates retrieve (QueryProcessor.expand_query query enum) top_k))
      top_k)
    top_k

end VectorSearch

namespace CohereUtils

/-- The attributes defined on the `CohereEmbedder` class in
`backend/cohere_utils.py`. -/
def cohereEmbedderMethods : List String :=
  ["__new__", "__init__", "client", "embed_documents", "embed_query",
   "_embed_batch_with_retry", "rerank"]

/-- The embedder attribute `VectorSearch.search` invokes to batch-embed
the expanded query set (`self.embedder.embed_queries(queries)`,
vector_search.py line 253). -/
def searchBatchEmbedAttr : String := "embed_queries"

/-- The sub-batches submitted by `CohereEmbedder.embed_documents`
(`for i in range(0, len(texts), batch_size): texts[i:i + batch_size]`).
Fuel is the number of texts; each step consumes at least one text when
`batchSize ≥ 1`. -/
def batchSplit (batchSize : Nat) : Nat → List String → List (List String)
  | _, [] => []
  | 0, l => [l]
  | fuel + 1, l => l.take batchSize :: batchSplit batchSize fuel (l.drop batchSize)

/-- `embed_documents`'s batching with the provider cap of 96. -/
def embedDocumentBatches (texts : List String) : List (List String) :=
  batchSplit 96 texts.length texts

end CohereUtils

/-! ### Helper lemmas about the Python string primitives -/

namespace PyStr

/-- A string containing a non-whitespace character does not strip to
the empty string. -/
theorem stripL_ne_nil {l : List Char} {c : Char} (hc : c ∈ l)
    (hs : isSpace c = false) : stripL l ≠ [] := by
  intro h
  unfold stripL at h
  rw [List.reverse_eq_nil_iff, List.dropWhile_eq_nil_iff] at h
  have hcd : c ∈ l.dropWhile isSpace := by
    have hsplit := List.takeWhile_append_dropWhile (p := isSpace) (l := l)
    have : c ∈ l.takeWhile isSpace ∨ c ∈ l.dropWhile isSpace := by
      rw [← List.mem_append, hsplit]; exact hc
    rcases this with h' | h'
    · exact absurd (List.mem_takeWhile_imp h') (by simp [hs])
    · exact h'
  have := h c (List.mem_reverse.mpr hcd)
  simp [hs] at this

/-- Concatenation at the character-list level. -/
theorem toList_append (a b : String) : (a ++ b).toList = a.toList ++ b.toList := by
  cases a; cases b; rfl

end PyStr

namespace QueryProcessor

open PyStr

/-- The stripped original query is one of the stripped candidates whenever
it is non-blank. -/
theorem strip_query_mem_resultSet (query : String) (hq : strip query ≠ "") :
    strip query ∈ expandResultSet query := by
  apply List.mem_filter.mpr
  refine ⟨List.mem_map_of_mem strip ?_, by simpa using hq⟩
  simp [expandCandidates]

/-- Each case-study-suffix variant strips to a non-blank string. -/
theorem strip_suffix_ne_blank (query suffix : String) {c : Char}
    (hc : c ∈ suffix.toList) (hcs : isSpace c = false) :
    strip (query ++ suffix) ≠ "" := by
  intro h
  have : stripL (query ++ suffix).toList = [] := by
    have := congrArg String.toList h
    simpa [strip] using this
  refine stripL_ne_nil ?_ hcs this
  rw [toList_append]
  exact List.mem_append.mpr (Or.inr hc)

/-- The stripped suffix variants are among the stripped candidates. -/
theorem strip_variant_mem_resultSet (query suffix : String)
    (hmem : (query ++ suffix) ∈ expandCandidates query) {c : Char}
    (hc : c ∈ suffix.toList) (hcs : isSpace c = false) :
    strip (query ++ suffix) ∈ expandResultSet query := by
  apply List.mem_filter.mpr
  exact ⟨List.mem_map_of_mem strip hmem,
    by simpa using strip_suffix_ne_blank query suffix hc hcs⟩

end QueryProcessor

/-- **C1 (amended).**  For every non-empty query and every admissible
enumeration of the Python set (any permutation of the de-duplicated
stripped candidates), `expand_query` returns a non-empty list of at most
8 strings drawn from the candidate set; whenever the de-duplicated
candidate set has at most 8 elements the result contains the stripped
original query (if non-blank) and the three case-study-suffix variants.
When more than 8 candidates arise, the unspecified set-enumeration order
decides which ones the truncation keeps. -/
theorem expand_query_bounded_amended (query : String)
    (enum : List String → List String) (_hq : query ≠ "")
    (henum : (enum (QueryProcessor.expandResultSet query)).Perm
      (QueryProcessor.expandResultSet query).dedup) :
    QueryProcessor.expand_query query enum ≠ [] ∧
    (QueryProcessor.expand_query query enum).length ≤ 8 ∧
    (∀ s ∈ QueryProcessor.expand_query query enum,
      s ∈ QueryProcessor.expandResultSet query) ∧
    ((QueryProcessor.expandResultSet query).dedup.length ≤ 8 →
      (PyStr.strip query ≠ "" →
        PyStr.strip query ∈ QueryProcessor.expand_query query enum) ∧
      PyStr.strip (query ++ " case study") ∈ QueryProcessor.expand_query query enum ∧
      PyStr.strip (query ++ " real world example") ∈ QueryProcessor.expand_query query enum ∧
      PyStr.strip (query ++ " how they did it") ∈ QueryProcessor.expand_query query enum) := by
  have hv1 : PyStr.strip (query ++ " case study") ∈ QueryProcessor.expandResultSet query := by
    refine QueryProcessor.strip_variant_mem_resultSet query " case study" ?_
      (c := 'c') (by decide) (by decide)
    simp [QueryProcessor.expandCandidates]
  have hv2 : PyStr.strip (query ++ " real world example") ∈
      QueryProcessor.expandResultSet query := by
    refine QueryProcessor.strip_variant_mem_resultSet query " real world example" ?_
      (c := 'r') (by decide) (by decide)
    simp [QueryProcessor.expandCandidates]
  have hv3 : PyStr.strip (query ++ " how they did it") ∈
      QueryProcessor.expandResultSet query := by
    refine QueryProcessor.strip_variant_mem_resultSet query " how they did it" ?_
      (c := 'h') (by decide) (by decide)
    simp [QueryProcessor.expandCandidates]
  refine ⟨?_, ?_, ?_, ?_⟩
  · -- non-empty: the enumerated set is non-empty, and `take 8` keeps that
    intro h
    have hne : QueryProcessor.expandResultSet query ≠ [] := by
      intro h0; rw [h0] at hv1; exact absurd hv1 (List.not_mem_nil _)
    have hlen : 0 < (enum (QueryProcessor.expandResultSet query)).length := by
      rw [henum.length_eq]
      have : (QueryProcessor.expandResultSet query).dedup ≠ [] := by
        simpa [List.dedup_eq_nil] using hne
      exact List.length_pos.mpr this
    have : QueryProcessor.expand_query query enum ≠ [] := by
      apply List.ne_nil_of_length_pos
      unfold QueryProcessor.expand_query
      rw [List.length_take]
      omega
    exact this h
  · unfold QueryProcessor.expand_query
    rw [List.length_take]
    omega
  · intro s hs
    have : s ∈ enum (QueryProcessor.expandResultSet query) := List.mem_of_mem_take hs
    have : s ∈ (QueryProcessor.expandResultSet query).dedup := henum.mem_iff.mp this
    exact List.mem_dedup.mp this
  · intro hd
    have htake : QueryProcessor.expand_query query enum
        = enum (QueryProcessor.expandResultSet query) := by
      unfold QueryProcessor.expand_query
      apply List.take_of_length_le
      rw [henum.length_eq]; exact hd
    have hmem : ∀ s, s ∈ QueryProcessor.expandResultSet query →
        s ∈ QueryProcessor.expand_query query enum := by
      intro s hs
      rw [htake]
      exact henum.mem_iff.mpr (List.mem_dedup.mpr hs)
    exact ⟨fun hnb => hmem _ (QueryProcessor.strip_query_mem_resultSet query hnb),
      hmem _ hv1, hmem _ hv2, hmem _ hv3⟩

/-- Witness for the amended C1 theorem at the query `"hello"` with the
identity enumeration of the de-duplicated set. -/
theorem expand_query_bounded_amended_witness :
    QueryProcessor.expand_query "hello" List.dedup ≠ [] ∧
    (QueryProcessor.expand_query "hello" List.dedup).length ≤ 8 ∧
    (∀ s ∈ QueryProcessor.expand_query "hello" List.dedup,
      s ∈ QueryProcessor.expandResultSet "hello") ∧
    ((QueryProcessor.expandResultSet "hello").dedup.length ≤ 8 →
      (PyStr.strip "hello" ≠ "" →
        PyStr.strip "hello" ∈ QueryProcessor.expand_query "hello" List.dedup) ∧
      PyStr.strip ("hello" ++ " case study") ∈ QueryProcessor.expand_query "hello" List.dedup ∧
      PyStr.strip ("hello" ++ " real world example") ∈ QueryProcessor.expand_query "hello" List.dedup ∧
      PyStr.strip ("hello" ++ " how they did it") ∈ QueryProcessor.expand_query "hello" List.dedup) :=
  expand_query_bounded_amended "hello" List.dedup (by decide) (List.Perm.refl _)

/-- **C1 (counterexample).**  For the non-empty query
"pivot a? pivot b? pivot c? pivot d?" the de-duplicated candidate set has
nine elements, so there is an admissible set-enumeration order (here:
the de-duplicated list rotated by two) under which the 8-element
truncation drops the original query — `expand(query)` is then a
non-empty list of at most 8 strings that does **not** contain the
original query, refuting the claim as stated. -/
theorem expand_query_drops_original_cex :
    ("pivot a? pivot b? pivot c? pivot d?" : String) ≠ "" ∧
    ((QueryProcessor.expandResultSet "pivot a? pivot b? pivot c? pivot d?").dedup.rotate 2).Perm
      (QueryProcessor.expandResultSet "pivot a? pivot b? pivot c? pivot d?").dedup ∧
    "pivot a? pivot b? pivot c? pivot d?" ∉
      QueryProcessor.expand_query "pivot a? pivot b? pivot c? pivot d?"
        (fun l => l.dedup.rotate 2) :=
  ⟨by decide, List.rotate_perm _ 2, by decide⟩

/-! ### The merge step: dictionary lemmas and the merge invariant -/

namespace VectorSearch

/-- The iterated pairwise average `(((s1+s2)/2 + s3)/2 ... + sn)/2`
produced by repeatedly halving on each collision. -/
def iterAvg : List ℚ → ℚ
  | [] => 0
  | s :: ss => ss.foldl (fun a b => (a + b) / 2) s

/-- The sub-list of merge input chunks carrying a given deduplication key,
in merge (input) order. -/
def keyFilter (h : String → Int) (k : Int) (l : List Chunk) : List Chunk :=
  l.filter (fun c => chunkKey h c == k)

theorem iterAvg_append (s : ℚ) (ss : List ℚ) (t : ℚ) :
    iterAvg ((s :: ss) ++ [t]) = (iterAvg (s :: ss) + t) / 2 := by
  simp [iterAvg, List.foldl_append]

theorem dlookup_append_single_ne {k kc : Int} (hne : kc ≠ k) (D : List (Int × Chunk))
    (e : Chunk) : dlookup k (D ++ [(kc, e)]) = dlookup k D := by
  induction D with
  | nil => simp [dlookup, hne]
  | cons p rest ih =>
    obtain ⟨k', c⟩ := p
    by_cases hk : k' = k <;> simp [dlookup, hk, ih]

theorem dlookup_append_single_self {k : Int} {D : List (Int × Chunk)}
    (h : dlookup k D = none) (e : Chunk) : dlookup k (D ++ [(k, e)]) = some e := by
  induction D with
  | nil => simp [dlookup]
  | cons p rest ih =>
    obtain ⟨k', c⟩ := p
    by_cases hk : k' = k
    · simp [dlookup, hk] at h
    · simp only [dlookup, hk] at h
      simp [dlookup, hk, ih h]

theorem dlookup_dupdate_self (k : Int) (f : Chunk → Chunk) (D : List (Int × Chunk)) :
    dlookup k (dupdate k f D) = (dlookup k D).map f := by
  induction D with
  | nil => rfl
  | cons p rest ih =>
    obtain ⟨k', c⟩ := p
    by_cases hk : k' = k <;> simp [dlookup, dupdate, hk, ih]

theorem dlookup_dupdate_ne {k k' : Int} (hne : k' ≠ k) (f : Chunk → Chunk)
    (D : List (Int × Chunk)) : dlookup k (dupdate k' f D) = dlookup k D := by
  induction D with
  | nil => rfl
  | cons p rest ih =>
    obtain ⟨k₀, c⟩ := p
    unfold dupdate
    by_cases h0 : k₀ = k'
    · subst h0
      rw [if_pos rfl]
      unfold dlookup
      rw [if_neg hne, if_neg hne]
    · rw [if_neg h0]
      unfold dlookup
      by_cases h1 : k₀ = k
      · rw [if_pos h1, if_pos h1]
      · rw [if_neg h1, if_neg h1, ih]

theorem dupdate_keys (k : Int) (f : Chunk → Chunk) (D : List (Int × Chunk)) :
    (dupdate k f D).map Prod.fst = D.map Prod.fst := by
  induction D with
  | nil => rfl
  | cons p rest ih =>
    obtain ⟨k', c⟩ := p
    by_cases hk : k' = k <;> simp [dupdate, hk, ih]

theorem dlookup_eq_none_iff (k : Int) (D : List (Int × Chunk)) :
    dlookup k D = none ↔ k ∉ D.map Prod.fst := by
  induction D with
  | nil => simp [dlookup]
  | cons p rest ih =>
    obtain ⟨k', c⟩ := p
    by_cases hk : k' = k
    · subst hk
      simp [dlookup]
    · simp [dlookup, hk, ih, Ne.symm hk]

theorem mem_of_dlookup {k : Int} {c : Chunk} {D : List (Int × Chunk)}
    (h : dlookup k D = some c) : (k, c) ∈ D := by
  induction D with
  | nil => simp [dlookup] at h
  | cons p rest ih =>
    obtain ⟨k', c'⟩ := p
    by_cases hk : k' = k
    · subst hk
      simp [dlookup] at h
      simp [h]
    · simp only [dlookup, hk, if_false] at h
      exact List.mem_cons_of_mem _ (ih h)

theorem dlookup_of_mem_nodup {k : Int} {c : Chunk} {D : List (Int × Chunk)}
    (hnd : (D.map Prod.fst).Nodup) (hm : (k, c) ∈ D) : dlookup k D = some c := by
  induction D with
  | nil => simp at hm
  | cons p rest ih =>
    obtain ⟨k', c'⟩ := p
    simp only [List.map_cons, List.nodup_cons] at hnd
    rcases List.mem_cons.mp hm with heq | hmem
    · cases heq
      simp [dlookup]
    · have hk : k' ≠ k := by
        intro hkk
        exact hnd.1 (hkk ▸ (List.mem_map_of_mem Prod.fst hmem))
      simp [dlookup, hk, ih hnd.2 hmem]

theorem mergeStep_keys_nodup (h : String → Int) (c : Chunk) {D : List (Int × Chunk)}
    (hnd : (D.map Prod.fst).Nodup) : ((mergeStep h D c).map Prod.fst).Nodup := by
  cases hl : dlookup (chunkKey h c) D with
  | some e =>
    simp only [mergeStep, hl]
    simpa [dupdate_keys] using hnd
  | none =>
    simp only [mergeStep, hl]
    rw [dlookup_eq_none_iff] at hl
    rw [List.map_append, List.nodup_append]
    exact ⟨hnd, List.nodup_singleton _, by simpa using hl⟩

theorem mergeFold_keys_nodup (h : String → Int) (l : List Chunk) :
    ((l.foldl (mergeStep h) []).map Prod.fst).Nodup := by
  suffices H : ∀ D, (D.map Prod.fst).Nodup →
      ((l.foldl (mergeStep h) D).map Prod.fst).Nodup from H [] (by simp)
  induction l with
  | nil => intro D hD; simpa using hD
  | cons c rest ih => intro D hD; exact ih _ (mergeStep_keys_nodup h c hD)

/-- The dictionary invariant of the merge loop: for every key, the
`seen_texts` entry is the first input chunk with that key, carrying the
iterated pairwise average of all its scores and the occurrence count. -/
def MergeInv (h : String → Int) (l : List Chunk) (D : List (Int × Chunk)) : Prop :=
  ∀ k : Int,
    (keyFilter h k l = [] → dlookup k D = none) ∧
    (∀ c₀ t, keyFilter h k l = c₀ :: t →
      dlookup k D = some
        { c₀ with score := iterAvg ((keyFilter h k l).map Chunk.score)
                , match_count := some (keyFilter h k l).length })

theorem keyFilter_append_single (h : String → Int) (k : Int) (l : List Chunk) (c : Chunk) :
    keyFilter h k (l ++ [c])
      = keyFilter h k l ++ (if chunkKey h c = k then [c] else []) := by
  unfold keyFilter
  rw [List.filter_append]
  congr 1
  by_cases hk : chunkKey h c = k <;> simp [hk]

theorem mergeInv_step (h : String → Int) {l : List Chunk} {D : List (Int × Chunk)}
    (c : Chunk) (hInv : MergeInv h l D) : MergeInv h (l ++ [c]) (mergeStep h D c) := by
  intro k
  have hfa := keyFilter_append_single h k l c
  by_cases hk : chunkKey h c = k
  · -- the processed chunk carries the key `k`
    subst hk
    rw [if_pos rfl] at hfa
    cases hl : dlookup (chunkKey h c) D with
    | none =>
      have hfl : keyFilter h (chunkKey h c) l = [] := by
        cases hfl : keyFilter h (chunkKey h c) l with
        | nil => rfl
        | cons c₀ t =>
          rw [(hInv (chunkKey h c)).2 c₀ t hfl] at hl
          cases hl
      rw [hfl, List.nil_append] at hfa
      refine ⟨fun habs => ?_, fun c₀ t heq => ?_⟩
      · rw [hfa] at habs
        cases habs
      · rw [hfa] at heq
        injection heq with h1 h2
        subst h1
        rw [hfa]
        simp only [mergeStep, hl]
        rw [dlookup_append_single_self hl]
        simp [iterAvg]
    | some e =>
      cases hfl : keyFilter h (chunkKey h c) l with
      | nil =>
        rw [(hInv (chunkKey h c)).1 hfl] at hl
        cases hl
      | cons c₀ t =>
        have hold := (hInv (chunkKey h c)).2 c₀ t hfl
        refine ⟨fun habs => ?_, fun c₀' t' heq => ?_⟩
        · rw [hfa, hfl, List.cons_append] at habs
          cases habs
        · rw [hfa, hfl, List.cons_append] at heq
          injection heq with h1 h2
          subst h1
          rw [hfa, hfl]
          simp only [mergeStep, hl]
          rw [dlookup_dupdate_self, hold]
          simp only [Option.map_some']
          congr 1
          rw [hfl]
          have hsc : iterAvg (((c₀ :: t).map Chunk.score) ++ [c.score])
              = (iterAvg ((c₀ :: t).map Chunk.score) + c.score) / 2 := by
            simp only [List.map_cons]
            exact iterAvg_append _ _ _
          simp only [List.cons_append, List.map_cons, List.map_append, List.map_nil,
            List.length_cons, List.length_append, List.length_nil] at hsc ⊢
          rw [← hsc]
          simp [Nat.add_comm]
  · -- an unrelated key: neither the filter nor the dictionary entry changes
    rw [if_neg hk, List.append_nil] at hfa
    have hstep : dlookup k (mergeStep h D c) = dlookup k D := by
      cases hl : dlookup (chunkKey h c) D with
      | none =>
        simp only [mergeStep, hl]
        exact dlookup_append_single_ne hk D _
      | some e =>
        simp only [mergeStep, hl]
        exact dlookup_dupdate_ne hk _ D
    rw [hfa, hstep]
    exact hInv k

theorem mergeInv_fold (h : String → Int) (l : List Chunk) :
    MergeInv h l (l.foldl (mergeStep h) []) := by
  induction l using List.reverseRecOn with
  | nil =>
    intro k
    refine ⟨fun _ => rfl, fun c₀ t heq => ?_⟩
    simp [keyFilter] at heq
  | append_singleton l c ih =>
    rw [List.foldl_append]
    exact mergeInv_step h c ih

end VectorSearch

namespace VectorSearch

theorem insertDesc_perm (c : Chunk) (l : List Chunk) : (insertDesc c l).Perm (c :: l) := by
  induction l with
  | nil => exact List.Perm.refl _
  | cons y ys ih =>
    unfold insertDesc
    by_cases hgt : sortKeyGT c y
    · rw [if_pos hgt]
    · rw [if_neg hgt]
      exact (ih.cons y).trans (List.Perm.swap c y ys)

theorem sortDesc_perm (l : List Chunk) : (sortDesc l).Perm l := by
  suffices H : ∀ acc, ((l.foldl (fun acc c => insertDesc c acc) acc)).Perm (acc ++ l) by
    simpa using H []
  induction l with
  | nil => intro acc; simp
  | cons c rest ih =>
    intro acc
    simp only [List.foldl_cons]
    exact (ih _).trans
      (((insertDesc_perm c acc).append_right rest).trans List.perm_middle.symm)

/-- The merged-entry characterisation shared by the merge theorems: for a
key occurring in the input, the merge output contains exactly one chunk
with that key, and it is the first input occurrence with the iterated
pairwise-average score and the occurrence count. -/
theorem merge_entry_spec (h : String → Int) (l : List Chunk) (k : Int) {c₀ : Chunk}
    {t : List Chunk} (hft : keyFilter h k l = c₀ :: t) :
    (∃ e ∈ merge_results h l, chunkKey h e = k) ∧
    ∀ e ∈ merge_results h l, chunkKey h e = k →
      e = { c₀ with score := iterAvg ((keyFilter h k l).map Chunk.score)
                  , match_count := some (keyFilter h k l).length } := by
  have hInv := mergeInv_fold h l
  have hlook := (hInv k).2 c₀ t hft
  have hperm := sortDesc_perm ((l.foldl (mergeStep h) []).map Prod.snd)
  have hkey0 : chunkKey h c₀ = k := by
    have hc0 : c₀ ∈ keyFilter h k l := by rw [hft]; exact List.mem_cons_self _ _
    have := (List.mem_filter.mp hc0).2
    simpa using this
  have hkeyE : chunkKey h { c₀ with
      score := iterAvg ((keyFilter h k l).map Chunk.score)
    , match_count := some (keyFilter h k l).length } = k := hkey0
  constructor
  · have hmemE : ({ c₀ with score := iterAvg ((keyFilter h k l).map Chunk.score), match_count := some (keyFilter h k l).length } : Chunk) ∈ merge_results h l := by
      unfold merge_results
      rw [hperm.mem_iff]
      exact List.mem_map_of_mem Prod.snd (mem_of_dlookup hlook)
    exact ⟨_, hmemE, hkeyE⟩
  · intro e he hke
    have hmem : e ∈ (l.foldl (mergeStep h) []).map Prod.snd := by
      rw [← hperm.mem_iff]
      exact he
    obtain ⟨⟨k', e'⟩, hpm, hpe⟩ := List.mem_map.mp hmem
    cases hpe
    have hlk' : dlookup k' (l.foldl (mergeStep h) []) = some e' :=
      dlookup_of_mem_nodup (mergeFold_keys_nodup h l) hpm
    -- the stored entry's own key equals its dictionary key
    have hk'k : k' = k := by
      cases hfl' : keyFilter h k' l with
      | nil =>
        rw [(hInv k').1 hfl'] at hlk'
        cases hlk'
      | cons d₀ u =>
        have := (hInv k').2 d₀ u hfl'
        rw [this] at hlk'
        injection hlk' with hlk'
        have hd₀ : chunkKey h d₀ = k' := by
          have hd : d₀ ∈ keyFilter h k' l := by rw [hfl']; exact List.mem_cons_self _ _
          have := (List.mem_filter.mp hd).2
          simpa using this
        rw [← hke, ← hlk']
        exact hd₀.symm ▸ rfl
    subst hk'k
    rw [hlook] at hlk'
    injection hlk' with hlk'
    exact hlk'.symm

end VectorSearch

/-- **C2.**  When the chunks carrying a given deduplication key (the hash
of the first 200 characters of `exact_text`) occur in the merge input
with scores `s1..sn` in merge order, the merged output contains exactly
one entry with that key, and it has `match_count = n` and score equal to
the iterated pairwise average `(((s1+s2)/2 + s3)/2 ... + sn)/2`. -/
theorem merge_match_count_and_score (h : String → Int) (l : List VectorSearch.Chunk)
    (k : Int) (hne : VectorSearch.keyFilter h k l ≠ []) :
    (∃ e ∈ VectorSearch.merge_results h l, VectorSearch.chunkKey h e = k) ∧
    ∀ e ∈ VectorSearch.merge_results h l, VectorSearch.chunkKey h e = k →
      e.match_count = some (VectorSearch.keyFilter h k l).length ∧
      e.score = VectorSearch.iterAvg
        ((VectorSearch.keyFilter h k l).map VectorSearch.Chunk.score) := by
  cases hf : VectorSearch.keyFilter h k l with
  | nil => exact absurd hf hne
  | cons c₀ t =>
    obtain ⟨hex, huniq⟩ := VectorSearch.merge_entry_spec h l k hf
    refine ⟨hex, fun e he hk => ?_⟩
    rw [huniq e he hk, hf]
    exact ⟨rfl, rfl⟩

/-- The binder-free scores involved in the C2 witness: merging two chunks
with the same text and scores 1 and 3 yields one entry with
`match_count = 2` and score `(1+3)/2 = 2`. -/
def mkChunk (txt : String) (sc : ℚ) (src : Option String) : VectorSearch.Chunk :=
  { VectorSearch.defaultChunk with exact_text := txt, score := sc, source_file := src }

/-- A concrete stand-in for Python's string hash (any function works for
the concrete counterexamples). -/
def hashConst : String → Int := fun _ => 0

/-- A length-based stand-in for Python's string hash, injective on the
distinct-length texts used in the concrete scenarios. -/
def hashLen : String → Int := fun s => (s.length : Int)

/-- Witness for C2 at a concrete merge input. -/
theorem merge_match_count_and_score_witness :
    VectorSearch.keyFilter hashConst 0 [mkChunk "t" 1 none, mkChunk "t" 3 none] ≠ [] ∧
    ((∃ e ∈ VectorSearch.merge_results hashConst [mkChunk "t" 1 none, mkChunk "t" 3 none],
        VectorSearch.chunkKey hashConst e = 0) ∧
      ∀ e ∈ VectorSearch.merge_results hashConst [mkChunk "t" 1 none, mkChunk "t" 3 none],
        VectorSearch.chunkKey hashConst e = 0 →
        e.match_count = some (VectorSearch.keyFilter hashConst 0
          [mkChunk "t" 1 none, mkChunk "t" 3 none]).length ∧
        e.score = VectorSearch.iterAvg ((VectorSearch.keyFilter hashConst 0
          [mkChunk "t" 1 none, mkChunk "t" 3 none]).map VectorSearch.Chunk.score)) :=
  ⟨by decide, merge_match_count_and_score hashConst _ 0 (by decide)⟩

namespace VectorSearch

/-- Every chunk in the merge output is the dictionary entry stored under
its own deduplication key. -/
theorem merge_mem_dlookup (h : String → Int) (l : List Chunk) :
    ∀ e ∈ merge_results h l,
      dlookup (chunkKey h e) (l.foldl (mergeStep h) []) = some e := by
  intro e he
  have hInv := mergeInv_fold h l
  have hperm := sortDesc_perm ((l.foldl (mergeStep h) []).map Prod.snd)
  have hmem : e ∈ (l.foldl (mergeStep h) []).map Prod.snd := by
    rw [← hperm.mem_iff]
    exact he
  obtain ⟨⟨k', e'⟩, hpm, hpe⟩ := List.mem_map.mp hmem
  cases hpe
  have hlk' : dlookup k' (l.foldl (mergeStep h) []) = some e' :=
    dlookup_of_mem_nodup (mergeFold_keys_nodup h l) hpm
  have hkk : chunkKey h e' = k' := by
    cases hfl' : keyFilter h k' l with
    | nil =>
      rw [(hInv k').1 hfl'] at hlk'
      cases hlk'
    | cons d₀ u =>
      have := (hInv k').2 d₀ u hfl'
      rw [this] at hlk'
      injection hlk' with hlk'
      have hd₀ : chunkKey h d₀ = k' := by
        have hd : d₀ ∈ keyFilter h k' l := by rw [hfl']; exact List.mem_cons_self _ _
        have := (List.mem_filter.mp hd).2
        simpa using this
      rw [← hlk']
      exact hd₀
  rw [hkk]
  exact hlk'

/-- A key has an entry in the merge output exactly when some input chunk
carries it. -/
theorem merge_key_present_iff (h : String → Int) (l : List Chunk) (k : Int) :
    (∃ e ∈ merge_results h l, chunkKey h e = k) ↔ keyFilter h k l ≠ [] := by
  constructor
  · rintro ⟨e, he, hke⟩ hnil
    have hd := merge_mem_dlookup h l e he
    rw [hke, (mergeInv_fold h l k).1 hnil] at hd
    cases hd
  · intro hne
    cases hf : keyFilter h k l with
    | nil => exact absurd hf hne
    | cons c₀ t => exact (merge_entry_spec h l k hf).1

end VectorSearch

/-- **C3 (amended).**  Merging is order-independent only at the level of
deduplication keys and match counts: for any reordering of the candidate
list, the merge output has entries for exactly the same keys, with the
same `match_count` per key.  The scores (and the retained first-seen
chunk) are *not* order-independent in general — see the counterexample. -/
theorem merge_keyset_and_counts_perm_invariant (h : String → Int)
    (l l' : List VectorSearch.Chunk) (hp : l.Perm l') (k : Int) :
    ((∃ e ∈ VectorSearch.merge_results h l, VectorSearch.chunkKey h e = k) ↔
      (∃ e' ∈ VectorSearch.merge_results h l', VectorSearch.chunkKey h e' = k)) ∧
    (∀ e ∈ VectorSearch.merge_results h l, ∀ e' ∈ VectorSearch.merge_results h l',
      VectorSearch.chunkKey h e = k → VectorSearch.chunkKey h e' = k →
      e.match_count = e'.match_count) := by
  have hlen : (VectorSearch.keyFilter h k l).length
      = (VectorSearch.keyFilter h k l').length := by
    unfold VectorSearch.keyFilter
    rw [← List.countP_eq_length_filter, ← List.countP_eq_length_filter]
    exact hp.countP_eq _
  constructor
  · rw [VectorSearch.merge_key_present_iff, VectorSearch.merge_key_present_iff]
    constructor
    · intro hne
      intro hnil'
      rw [hnil'] at hlen
      exact hne (List.length_eq_zero.mp (by simpa using hlen))
    · intro hne'
      intro hnil
      rw [hnil] at hlen
      exact hne' (List.length_eq_zero.mp (by simpa using hlen.symm))
  · intro e he e' he' hke hke'
    have hne : VectorSearch.keyFilter h k l ≠ [] :=
      (VectorSearch.merge_key_present_iff h l k).mp ⟨e, he, hke⟩
    have hne' : VectorSearch.keyFilter h k l' ≠ [] :=
      (VectorSearch.merge_key_present_iff h l' k).mp ⟨e', he', hke'⟩
    cases hf : VectorSearch.keyFilter h k l with
    | nil => exact absurd hf hne
    | cons c₀ t =>
      cases hf' : VectorSearch.keyFilter h k l' with
      | nil => exact absurd hf' hne'
      | cons c₀' t' =>
        rw [(VectorSearch.merge_entry_spec h l k hf).2 e he hke,
          (VectorSearch.merge_entry_spec h l' k hf').2 e' he' hke']
        show some (VectorSearch.keyFilter h k l).length
          = some (VectorSearch.keyFilter h k l').length
        rw [hlen]

/-- Witness for the amended C3 theorem at a concrete two-chunk list and
its reversal. -/
theorem merge_keyset_and_counts_perm_invariant_witness :
    ([mkChunk "t" 1 none, mkChunk "u" 2 none] : List VectorSearch.Chunk).Perm
      [mkChunk "u" 2 none, mkChunk "t" 1 none] ∧
    (((∃ e ∈ VectorSearch.merge_results hashConst [mkChunk "t" 1 none, mkChunk "u" 2 none],
        VectorSearch.chunkKey hashConst e = 0) ↔
      (∃ e' ∈ VectorSearch.merge_results hashConst [mkChunk "u" 2 none, mkChunk "t" 1 none],
        VectorSearch.chunkKey hashConst e' = 0)) ∧
    (∀ e ∈ VectorSearch.merge_results hashConst [mkChunk "t" 1 none, mkChunk "u" 2 none],
      ∀ e' ∈ VectorSearch.merge_results hashConst [mkChunk "u" 2 none, mkChunk "t" 1 none],
      VectorSearch.chunkKey hashConst e = 0 → VectorSearch.chunkKey hashConst e' = 0 →
      e.match_count = e'.match_count)) :=
  ⟨by decide, merge_keyset_and_counts_perm_invariant hashConst _ _ (by decide) 0⟩

/-- **C3 (counterexample).**  Three colliding chunks with scores 4, 0, 0:
in the given order the merged score is `((4+0)/2+0)/2 = 1`, in the
reversed order it is `((0+0)/2+4)/2 = 2` — the same candidate multiset
merged in two orders does **not** yield the same scores, refuting the
claimed order-independence. -/
theorem merge_order_dependent_cex :
    ([mkChunk "t" 4 none, mkChunk "t" 0 none, mkChunk "t" 0 none] :
        List VectorSearch.Chunk).Perm
      [mkChunk "t" 0 none, mkChunk "t" 0 none, mkChunk "t" 4 none] ∧
    (VectorSearch.merge_results hashConst
        [mkChunk "t" 4 none, mkChunk "t" 0 none, mkChunk "t" 0 none]).map
        VectorSearch.Chunk.score ≠
      (VectorSearch.merge_results hashConst
        [mkChunk "t" 0 none, mkChunk "t" 0 none, mkChunk "t" 4 none]).map
        VectorSearch.Chunk.score := by
  refine ⟨by decide, ?_⟩
  simp only [VectorSearch.merge_results, VectorSearch.mergeStep, VectorSearch.dlookup,
    VectorSearch.dupdate, VectorSearch.chunkKey, VectorSearch.sortDesc,
    VectorSearch.insertDesc, mkChunk, VectorSearch.defaultChunk, hashConst,
    List.foldl_cons, List.foldl_nil, List.map_cons, List.map_nil, reduceIte,
    List.append_nil, List.nil_append, List.cons_append]
  norm_num

/-- **C10.**  On a collision only `score` and `match_count` of the
retained entry change: every entry of the merge output carrying a given
key keeps the `exact_text` and all provenance metadata of the first
input occurrence of that key, and no field of a later duplicate
survives. -/
theorem merge_collision_frame (h : String → Int) (l : List VectorSearch.Chunk)
    (k : Int) (c₀ : VectorSearch.Chunk) (t : List VectorSearch.Chunk)
    (hft : VectorSearch.keyFilter h k l = c₀ :: t) :
    (∃ e ∈ VectorSearch.merge_results h l, VectorSearch.chunkKey h e = k) ∧
    ∀ e ∈ VectorSearch.merge_results h l, VectorSearch.chunkKey h e = k →
      e.exact_text = c₀.exact_text ∧ e.resource_type = c₀.resource_type ∧
      e.source_file = c₀.source_file ∧ e.book_title = c₀.book_title ∧
      e.author = c₀.author ∧ e.page_number = c₀.page_number ∧
      e.chapter = c₀.chapter ∧ e.article_title = c₀.article_title ∧
      e.authors = c₀.authors ∧ e.url = c₀.url ∧
      e.section_heading = c₀.section_heading ∧ e.rerank_score = c₀.rerank_score := by
  obtain ⟨hex, huniq⟩ := VectorSearch.merge_entry_spec h l k hft
  refine ⟨hex, fun e he hk => ?_⟩
  rw [huniq e he hk]
  exact ⟨rfl, rfl, rfl, rfl, rfl, rfl, rfl, rfl, rfl, rfl, rfl, rfl⟩

/-- Witness for C10: two colliding chunks from different sources — the
merged entry keeps the first chunk's source. -/
theorem merge_collision_frame_witness :
    VectorSearch.keyFilter hashConst 0
        [mkChunk "t" 1 (some "S"), mkChunk "t" 3 (some "R")]
      = mkChunk "t" 1 (some "S") :: [mkChunk "t" 3 (some "R")] ∧
    ((∃ e ∈ VectorSearch.merge_results hashConst
        [mkChunk "t" 1 (some "S"), mkChunk "t" 3 (some "R")],
        VectorSearch.chunkKey hashConst e = 0) ∧
    ∀ e ∈ VectorSearch.merge_results hashConst
        [mkChunk "t" 1 (some "S"), mkChunk "t" 3 (some "R")],
      VectorSearch.chunkKey hashConst e = 0 →
      e.exact_text = (mkChunk "t" 1 (some "S")).exact_text ∧
      e.resource_type = (mkChunk "t" 1 (some "S")).resource_type ∧
      e.source_file = (mkChunk "t" 1 (some "S")).source_file ∧
      e.book_title = (mkChunk "t" 1 (some "S")).book_title ∧
      e.author = (mkChunk "t" 1 (some "S")).author ∧
      e.page_number = (mkChunk "t" 1 (some "S")).page_number ∧
      e.chapter = (mkChunk "t" 1 (some "S")).chapter ∧
      e.article_title = (mkChunk "t" 1 (some "S")).article_title ∧
      e.authors = (mkChunk "t" 1 (some "S")).authors ∧
      e.url = (mkChunk "t" 1 (some "S")).url ∧
      e.section_heading = (mkChunk "t" 1 (some "S")).section_heading ∧
      e.rerank_score = (mkChunk "t" 1 (some "S")).rerank_score) :=
  ⟨by decide, merge_collision_frame hashConst
    [mkChunk "t" 1 (some "S"), mkChunk "t" 3 (some "R")] 0
    (mkChunk "t" 1 (some "S")) [mkChunk "t" 3 (some "R")] (by decide)⟩

/-! ### The diversity selector: round-robin loop lemmas -/

namespace VectorSearch

theorem totalSize_cons (k : String) (cs : List Chunk) (gs : List (String × List Chunk)) :
    totalSize ((k, cs) :: gs) = cs.length + totalSize gs := by
  simp [totalSize, allElems]

theorem rrPass_cons_pop (limit : Nat) (k : String) (c : Chunk) (cs' : List Chunk)
    (rest : List (String × List Chunk)) (pool : List Chunk) (h : pool.length < limit) :
    rrPass limit ((k, c :: cs') :: rest) pool
      = ((k, cs') :: (rrPass limit rest (pool ++ [c])).1,
          (rrPass limit rest (pool ++ [c])).2) := by
  cases he : rrPass limit rest (pool ++ [c]) with
  | mk a b => simp [rrPass, h, he]

theorem rrPass_cons_full (limit : Nat) (k : String) (c : Chunk) (cs' : List Chunk)
    (rest : List (String × List Chunk)) (pool : List Chunk) (h : ¬pool.length < limit) :
    rrPass limit ((k, c :: cs') :: rest) pool
      = ((k, c :: cs') :: (rrPass limit rest pool).1, (rrPass limit rest pool).2) := by
  cases he : rrPass limit rest pool with
  | mk a b => simp [rrPass, h, he]

theorem rrPass_cons_empty (limit : Nat) (k : String)
    (rest : List (String × List Chunk)) (pool : List Chunk) :
    rrPass limit ((k, []) :: rest) pool
      = ((k, []) :: (rrPass limit rest pool).1, (rrPass limit rest pool).2) := by
  cases he : rrPass limit rest pool with
  | mk a b => simp [rrPass, he]

theorem rrPass_pool_len (limit : Nat) (gs : List (String × List Chunk)) (pool : List Chunk) :
    (rrPass limit gs pool).2.length ≤ max limit pool.length := by
  induction gs generalizing pool with
  | nil => simp [rrPass]
  | cons g rest ih =>
    obtain ⟨k, cs⟩ := g
    cases cs with
    | nil =>
      rw [rrPass_cons_empty]
      exact ih pool
    | cons c cs' =>
      by_cases h : pool.length < limit
      · rw [rrPass_cons_pop limit k c cs' rest pool h]
        have h1 := ih (pool ++ [c])
        have h2 : (pool ++ [c]).length ≤ limit := by
          rw [List.length_append]
          simpa using h
        simp only []
        omega
      · rw [rrPass_cons_full limit k c cs' rest pool h]
        exact ih pool

theorem rrPass_conserve (limit : Nat) (gs : List (String × List Chunk)) (pool : List Chunk) :
    ((rrPass limit gs pool).2 ++ allElems (rrPass limit gs pool).1).Perm
      (pool ++ allElems gs) := by
  induction gs generalizing pool with
  | nil => simp [rrPass, allElems]
  | cons g rest ih =>
    obtain ⟨k, cs⟩ := g
    cases cs with
    | nil =>
      rw [rrPass_cons_empty]
      have hIH := ih pool
      simpa [allElems] using hIH
    | cons c cs' =>
      by_cases h : pool.length < limit
      · rw [rrPass_cons_pop limit k c cs' rest pool h]
        have hIH := ih (pool ++ [c])
        simp only [allElems, List.map_cons, List.flatten_cons] at hIH ⊢
        have e1 : ((rrPass limit rest (pool ++ [c])).2
              ++ (cs' ++ (List.map Prod.snd (rrPass limit rest (pool ++ [c])).1).flatten)).Perm
            (((rrPass limit rest (pool ++ [c])).2
              ++ (List.map Prod.snd (rrPass limit rest (pool ++ [c])).1).flatten) ++ cs') := by
          rw [List.append_assoc]
          exact List.perm_append_comm.append_left _
        have e2 := hIH.append_right cs'
        have e3 : (((pool ++ [c])
              ++ (List.map Prod.snd rest).flatten) ++ cs').Perm
            (pool ++ ((c :: cs') ++ (List.map Prod.snd rest).flatten)) := by
          rw [List.append_assoc, List.append_assoc]
          simp only [List.singleton_append, List.cons_append, List.nil_append]
          exact (List.perm_append_comm.cons c).append_left pool
        exact (e1.trans e2).trans e3
      · rw [rrPass_cons_full limit k c cs' rest pool h]
        have hIH := ih pool
        simp only [allElems, List.map_cons, List.flatten_cons] at hIH ⊢
        have e1 : ((rrPass limit rest pool).2
              ++ ((c :: cs') ++ (List.map Prod.snd (rrPass limit rest pool).1).flatten)).Perm
            (((rrPass limit rest pool).2
              ++ (List.map Prod.snd (rrPass limit rest pool).1).flatten) ++ (c :: cs')) := by
          rw [List.append_assoc]
          exact List.perm_append_comm.append_left _
        have e2 := hIH.append_right (c :: cs')
        have e3 : ((pool ++ (List.map Prod.snd rest).flatten) ++ (c :: cs')).Perm
            (pool ++ ((c :: cs') ++ (List.map Prod.snd rest).flatten)) := by
          rw [List.append_assoc]
          exact List.perm_append_comm.append_left pool
        exact (e1.trans e2).trans e3

theorem rrPass_total_le (limit : Nat) (gs : List (String × List Chunk)) (pool : List Chunk) :
    totalSize (rrPass limit gs pool).1 ≤ totalSize gs := by
  induction gs generalizing pool with
  | nil => simp [rrPass]
  | cons g rest ih =>
    obtain ⟨k, cs⟩ := g
    cases cs with
    | nil =>
      rw [rrPass_cons_empty]
      simp only [totalSize_cons]
      simpa using ih pool
    | cons c cs' =>
      by_cases h : pool.length < limit
      · rw [rrPass_cons_pop limit k c cs' rest pool h]
        have hle := ih (pool ++ [c])
        simp only [totalSize_cons, List.length_cons]
        omega
      · rw [rrPass_cons_full limit k c cs' rest pool h]
        have hle := ih pool
        simp only [totalSize_cons, List.length_cons]
        omega

theorem rrPass_total_lt (limit : Nat) (gs : List (String × List Chunk)) (pool : List Chunk)
    (hp : pool.length < limit) (hne : gs.any (fun g => !g.2.isEmpty)) :
    totalSize (rrPass limit gs pool).1 < totalSize gs := by
  induction gs generalizing pool with
  | nil => simp at hne
  | cons g rest ih =>
    obtain ⟨k, cs⟩ := g
    cases cs with
    | nil =>
      have hne' : rest.any (fun g => !g.2.isEmpty) := by
        simpa using hne
      rw [rrPass_cons_empty]
      simp only [totalSize_cons]
      simpa using ih pool hp hne'
    | cons c cs' =>
      rw [rrPass_cons_pop limit k c cs' rest pool hp]
      have hle := rrPass_total_le limit rest (pool ++ [c])
      simp only [totalSize_cons, List.length_cons]
      omega

theorem allElems_eq_nil_of_not_any (gs : List (String × List Chunk))
    (h : ¬gs.any (fun g => !g.2.isEmpty)) : allElems gs = [] := by
  induction gs with
  | nil => rfl
  | cons g rest ih =>
    obtain ⟨k, cs⟩ := g
    simp only [List.any_cons, Bool.or_eq_true, not_or] at h
    have hcs : cs = [] := by
      cases cs with
      | nil => rfl
      | cons c cs' => simp at h
    subst hcs
    simp only [allElems, List.map_cons, List.flatten_cons, List.nil_append]
    exact ih (by simpa using h.2)

theorem rrLoop_len (limit fuel : Nat) (gs : List (String × List Chunk)) (pool : List Chunk) :
    (rrLoop limit fuel gs pool).length ≤ max limit pool.length := by
  induction fuel generalizing gs pool with
  | zero => simp [rrLoop]
  | succ n ih =>
    unfold rrLoop
    by_cases hg : pool.length < limit ∧ gs.any (fun g => !g.2.isEmpty)
    · rw [if_pos hg]
      cases he : rrPass limit gs pool with
      | mk gs' pool' =>
        dsimp only
        have h1 := ih gs' pool'
        have h2 : pool'.length ≤ max limit pool.length := by
          have := rrPass_pool_len limit gs pool
          rw [he] at this
          exact this
        omega
    · rw [if_neg hg]
      omega

theorem rrLoop_perm_all (limit fuel : Nat) (gs : List (String × List Chunk))
    (pool : List Chunk) (hf : totalSize gs ≤ fuel)
    (hfit : pool.length + totalSize gs ≤ limit) :
    (rrLoop limit fuel gs pool).Perm (pool ++ allElems gs) := by
  induction fuel generalizing gs pool with
  | zero =>
    have h0 : totalSize gs = 0 := Nat.le_zero.mp hf
    have : allElems gs = [] := List.length_eq_zero.mp h0
    simp [rrLoop, this]
  | succ n ih =>
    unfold rrLoop
    by_cases hg : pool.length < limit ∧ gs.any (fun g => !g.2.isEmpty)
    · rw [if_pos hg]
      cases he : rrPass limit gs pool with
      | mk gs' pool' =>
        dsimp only
        have hcons := rrPass_conserve limit gs pool
        rw [he] at hcons
        dsimp only at hcons
        have hlt := rrPass_total_lt limit gs pool hg.1 hg.2
        rw [he] at hlt
        dsimp only at hlt
        have hlen : pool'.length + totalSize gs' = pool.length + totalSize gs := by
          have := hcons.length_eq
          simp only [List.length_append] at this
          simpa [totalSize] using this
        have hrec := ih gs' pool' (by omega) (by omega)
        exact hrec.trans hcons
    · rw [if_neg hg]
      rcases Decidable.not_and_iff_or_not.mp hg with hp | ha
      · have h0 : totalSize gs = 0 := by omega
        have : allElems gs = [] := List.length_eq_zero.mp h0
        simp [this]
      · have : allElems gs = [] := allElems_eq_nil_of_not_any gs (by simpa using ha)
        simp [this]

theorem allElems_addToGroups (gs : List (String × List Chunk)) (key : String) (c : Chunk) :
    (allElems (addToGroups gs key c)).Perm (c :: allElems gs) := by
  induction gs with
  | nil => simp [addToGroups, allElems]
  | cons g rest ih =>
    obtain ⟨k, cs⟩ := g
    by_cases hk : k = key
    · simp only [addToGroups, if_pos hk, allElems, List.map_cons, List.flatten_cons]
      rw [List.append_assoc]
      exact List.perm_middle
    · simp only [addToGroups, if_neg hk, allElems, List.map_cons, List.flatten_cons]
      have h1 : (cs ++ allElems (addToGroups rest key c)).Perm
          (cs ++ (c :: allElems rest)) := by
        have := ih
        simp only [allElems] at this
        exact this.append_left cs
      exact h1.trans List.perm_middle

theorem allElems_buildGroups (l : List Chunk) : (allElems (buildGroups l)).Perm l := by
  suffices H : ∀ gs : List (String × List Chunk),
      (allElems (l.foldl (fun gs c => addToGroups gs (sourceKey c) c) gs)).Perm
        (allElems gs ++ l) by
    simpa [buildGroups, allElems] using H []
  induction l with
  | nil => intro gs; simp
  | cons c rest ih =>
    intro gs
    simp only [List.foldl_cons]
    exact (ih _).trans
      (((allElems_addToGroups gs (sourceKey c) c).append_right rest).trans
        List.perm_middle.symm)

theorem apply_diversity_take3 (chunks : List Chunk) (top_k : Nat) :
    (apply_diversity chunks top_k).take 3 = chunks.take 3 := by
  unfold apply_diversity
  by_cases hc : chunks = []
  · simp [hc]
  · rw [if_neg hc]
    by_cases hr : chunks.drop 3 = []
    · have hlen : chunks.length ≤ 3 := by
        have := List.length_drop 3 chunks
        rw [hr] at this
        simp at this
        omega
      rw [if_pos hr, List.append_nil, List.take_take]
      simp
    · have hlen : 3 ≤ (chunks.take 3).length := by
        rw [List.length_take]
        have := List.length_drop 3 chunks
        by_contra hcon
        push_neg at hcon
        have : chunks.length < 3 := by omega
        have hnil : chunks.drop 3 = [] := by
          apply List.length_eq_zero.mp
          rw [List.length_drop]
          omega
        exact hr hnil
      rw [List.take_append_of_le_length hlen, List.take_take]
      simp

theorem apply_diversity_short (chunks : List Chunk) (top_k : Nat)
    (h : chunks.length < 3) : apply_diversity chunks top_k = chunks := by
  unfold apply_diversity
  by_cases hc : chunks = []
  · simp [hc]
  · rw [if_neg hc]
    have hdrop : chunks.drop 3 = [] := by
      apply List.length_eq_zero.mp
      rw [List.length_drop]
      omega
    rw [if_pos hdrop, List.append_nil]
    exact List.take_of_length_le (by omega)

theorem apply_diversity_len (chunks : List Chunk) (top_k : Nat) :
    (apply_diversity chunks top_k).length ≤ max top_k 3 := by
  unfold apply_diversity
  by_cases hc : chunks = []
  · simp [hc]
  · rw [if_neg hc]
    rw [List.length_append]
    have h1 : (chunks.take 3).length ≤ 3 := by
      rw [List.length_take]; omega
    by_cases hr : chunks.drop 3 = []
    · rw [if_pos hr]
      simp only [List.length_nil]
      omega
    · rw [if_neg hr]
      have h2 := rrLoop_len (top_k - 3) (totalSize (buildGroups (chunks.drop 3)))
        (buildGroups (chunks.drop 3)) []
      simp only [List.length_nil] at h2
      omega

theorem apply_diversity_perm (chunks : List Chunk) (top_k : Nat)
    (h : chunks.length ≤ top_k) : (apply_diversity chunks top_k).Perm chunks := by
  unfold apply_diversity
  by_cases hc : chunks = []
  · simp [hc]
  · rw [if_neg hc]
    by_cases hr : chunks.drop 3 = []
    · rw [if_pos hr, List.append_nil]
      have hlen : chunks.length ≤ 3 := by
        have := List.length_drop 3 chunks
        rw [hr] at this
        simp at this
        omega
      rw [List.take_of_length_le hlen]
    · rw [if_neg hr]
      have hG := allElems_buildGroups (chunks.drop 3)
      have hts : totalSize (buildGroups (chunks.drop 3)) = chunks.length - 3 := by
        unfold totalSize
        rw [hG.length_eq, List.length_drop]
      have hcne : 3 ≤ chunks.length := by
        by_contra hcon
        push_neg at hcon
        exact hr (List.length_eq_zero.mp (by rw [List.length_drop]; omega))
      have hpool := rrLoop_perm_all (top_k - 3) (totalSize (buildGroups (chunks.drop 3)))
        (buildGroups (chunks.drop 3)) [] (le_refl _) (by simp [hts]; omega)
      simp only [List.nil_append] at hpool
      have : ((chunks.take 3) ++ rrLoop (top_k - 3)
          (totalSize (buildGroups (chunks.drop 3))) (buildGroups (chunks.drop 3)) []).Perm
          ((chunks.take 3) ++ chunks.drop 3) :=
        (hpool.trans hG).append_left (chunks.take 3)
      rw [List.take_append_drop] at this
      exact this

end VectorSearch

/-! ### Concrete scenario data shared by witnesses and counterexamples -/

/-- Build a Qdrant point with the given source file, text, and score. -/
def mkPoint (txt : String) (sc : ℚ) (src : Option String) : VectorSearch.QdrantPoint :=
  ⟨sc, { resource_type := none
         , source_file := src
         , exact_text := txt
         , book_title := none
         , author := none
         , page_number := none
         , chapter := none
         , article_title := none
         , authors := none
         , url := none
         , section_heading := none }⟩

/-- An always-failing cross-encoder rerank call. -/
def rerankFail : String → List String → Nat → Except Unit (List (Nat × ℚ)) :=
  fun _ _ _ => .error ()

/-- Six stored points: five from source "A" with descending scores and one
from source "B", all with pairwise distinct text lengths. -/
def scenarioPoints : List VectorSearch.QdrantPoint :=
  [ mkPoint "a" 6 (some "A"), mkPoint "bb" 5 (some "A"), mkPoint "ccc" 4 (some "A")
  , mkPoint "dddd" 3 (some "A"), mkPoint "eeeee" 2 (some "A")
  , mkPoint "ffffff" 1 (some "B") ]

/-- A retriever that answers only the literal query "x" and fails on every
expanded variation. -/
def scenarioRetrieve : String → Nat → Except Unit (List VectorSearch.QdrantPoint) :=
  fun q _ => if q = "x" then .ok scenarioPoints else .error ()

/-- A retriever whose every call raises a transport error. -/
def failingRetrieve : String → Nat → Except Unit (List VectorSearch.QdrantPoint) :=
  fun _ _ => .error ()

/-! ### Diversity selector claims -/

/-- **C5.**  The diversity selector never drops any of the first three
chunks of its ranked input: for every input list and every `top_k` the
output starts with `chunks.take 3` verbatim, and when fewer than three
candidates exist all of them are returned unchanged. -/
theorem apply_diversity_keeps_top3 (chunks : List VectorSearch.Chunk) (top_k : Nat) :
    (∃ tail, VectorSearch.apply_diversity chunks top_k = chunks.take 3 ++ tail) ∧
    (chunks.length < 3 → VectorSearch.apply_diversity chunks top_k = chunks) := by
  constructor
  · unfold VectorSearch.apply_diversity
    by_cases hc : chunks = []
    · exact ⟨[], by simp [hc]⟩
    · rw [if_neg hc]
      exact ⟨_, rfl⟩
  · exact VectorSearch.apply_diversity_short chunks top_k

/-- Witness for C5 at a concrete four-chunk input. -/
theorem apply_diversity_keeps_top3_witness :
    (∃ tail, VectorSearch.apply_diversity
        [mkChunk "a" 4 (some "A"), mkChunk "b" 3 (some "B"), mkChunk "c" 2 (some "A"),
          mkChunk "d" 1 (some "B")] 4
      = ([mkChunk "a" 4 (some "A"), mkChunk "b" 3 (some "B"), mkChunk "c" 2 (some "A"),
          mkChunk "d" 1 (some "B")] : List VectorSearch.Chunk).take 3 ++ tail) ∧
    (([mkChunk "a" 4 (some "A"), mkChunk "b" 3 (some "B"), mkChunk "c" 2 (some "A"),
        mkChunk "d" 1 (some "B")] : List VectorSearch.Chunk).length < 3 →
      VectorSearch.apply_diversity
        [mkChunk "a" 4 (some "A"), mkChunk "b" 3 (some "B"), mkChunk "c" 2 (some "A"),
          mkChunk "d" 1 (some "B")] 4
      = [mkChunk "a" 4 (some "A"), mkChunk "b" 3 (some "B"), mkChunk "c" 2 (some "A"),
          mkChunk "d" 1 (some "B")]) :=
  apply_diversity_keeps_top3 _ 4

/-- **C6 (amended).**  The diversity selector returns at most
`max top_k 3` chunks: at most `top_k` whenever `top_k ≥ 3`, but up to 3
chunks when `top_k < 3`, because the top three are kept unconditionally. -/
theorem apply_diversity_length_amended (chunks : List VectorSearch.Chunk) (top_k : Nat) :
    (VectorSearch.apply_diversity chunks top_k).length ≤ max top_k 3 :=
  VectorSearch.apply_diversity_len chunks top_k

/-- **C6 (counterexample).**  With three candidates and `top_k = 2` the
selector returns all three chunks — a list of length 3 > `top_k`,
refuting the claimed `length ≤ top_k` bound. -/
theorem apply_diversity_length_cex :
    ¬(VectorSearch.apply_diversity
        [mkChunk "a" 3 (some "A"), mkChunk "b" 2 (some "A"), mkChunk "c" 1 (some "B")]
        2).length ≤ 2 := by
  decide

/-! ### Pipeline claims -/

/-- With reranking disabled the reranker adapter returns the first
`top_k` chunks unchanged. -/
theorem rerank_disabled (rerankCall : String → List String → Nat → Except Unit (List (Nat × ℚ)))
    (q : String) (chunks : List VectorSearch.Chunk) (top_k : Nat) :
    VectorSearch.rerank_with_cohere false rerankCall q chunks top_k = chunks.take top_k := by
  unfold VectorSearch.rerank_with_cohere
  rw [if_pos (Or.inl rfl)]

/-- **C7 (amended).**  With reranking disabled, `search()` returns the
merge output truncated to `top_k` *up to reordering by the diversity
pass*: the output is a permutation of the truncated merge output and its
first three elements keep the merge order, but the elements after the
first three may be reordered by the round-robin source interleaving. -/
theorem search_disabled_rerank_amended (h : String → Int)
    (rerankCall : String → List String → Nat → Except Unit (List (Nat × ℚ)))
    (retrieve : String → Nat → Except Unit (List VectorSearch.QdrantPoint))
    (query : String) (top_k : Nat) (enum : List String → List String) :
    (VectorSearch.searchPipeline h false rerankCall retrieve query top_k enum).Perm
      ((VectorSearch.merge_results h
        (VectorSearch.allCandidates retrieve
          (QueryProcessor.expand_query query enum) top_k)).take top_k) ∧
    (VectorSearch.searchPipeline h false rerankCall retrieve query top_k enum).take 3
      = ((VectorSearch.merge_results h
        (VectorSearch.allCandidates retrieve
          (QueryProcessor.expand_query query enum) top_k)).take top_k).take 3 := by
  unfold VectorSearch.searchPipeline
  rw [rerank_disabled]
  constructor
  · exact VectorSearch.apply_diversity_perm _ top_k (by rw [List.length_take]; omega)
  · exact VectorSearch.apply_diversity_take3 _ top_k

/-- **C7 (counterexample).**  A concrete rerank-disabled search whose
output is *not* the merge output truncated to `top_k`: with five chunks
from source "A" ahead of one chunk from source "B", the diversity pass
moves the "B" chunk ahead of the last "A" chunk. -/
theorem search_disabled_rerank_cex :
    VectorSearch.searchPipeline hashLen false rerankFail scenarioRetrieve "x" 6 List.dedup
      ≠ (VectorSearch.merge_results hashLen
          (VectorSearch.allCandidates scenarioRetrieve
            (QueryProcessor.expand_query "x" List.dedup) 6)).take 6 := by
  decide

/-- **C9.**  When every expanded-query search raises a transport error,
each per-query result is the empty list, the merge input is empty, and
the whole pipeline returns an empty list instead of raising. -/
theorem search_all_queries_error_empty (h : String → Int) (enabled : Bool)
    (rerankCall : String → List String → Nat → Except Unit (List (Nat × ℚ)))
    (retrieve : String → Nat → Except Unit (List VectorSearch.QdrantPoint))
    (query : String) (top_k : Nat) (enum : List String → List String)
    (herr : ∀ q n, retrieve q n = .error ()) :
    VectorSearch.searchPipeline h enabled rerankCall retrieve query top_k enum = [] := by
  unfold VectorSearch.searchPipeline
  have hall : VectorSearch.allCandidates retrieve
      (QueryProcessor.expand_query query enum) top_k = [] := by
    unfold VectorSearch.allCandidates
    induction QueryProcessor.expand_query query enum with
    | nil => rfl
    | cons q rest ih =>
      rw [List.map_cons, List.flatten_cons, herr q (top_k * 2), ih]
      rfl
  rw [hall]
  have hmerge : VectorSearch.merge_results h [] = [] := rfl
  rw [hmerge]
  have hrr : VectorSearch.rerank_with_cohere enabled rerankCall query [] top_k = [] := by
    unfold VectorSearch.rerank_with_cohere
    rw [if_pos (Or.inr rfl)]
    exact List.take_nil
  rw [hrr]
  rfl

/-- Witness for C9 with a concretely failing retriever. -/
theorem search_all_queries_error_empty_witness :
    (∀ q n, failingRetrieve q n = .error ()) ∧
    VectorSearch.searchPipeline hashConst true rerankFail failingRetrieve "x" 6
      List.dedup = [] :=
  ⟨fun _ _ => rfl,
    search_all_queries_error_empty hashConst true rerankFail failingRetrieve "x" 6
      List.dedup (fun _ _ => rfl)⟩

/-! ### Reranker adapter failure claim -/

/-- **C8 (amended).**  If the cross-encoder rerank call raises, the
reranker adapter does not raise: it returns the first `top_k * 2` chunks
of the pre-rerank merged order — a list of size
`min (2*top_k) (len merged)`, non-empty whenever the merged input is
non-empty **and `top_k ≥ 1`** (for `top_k = 0` the fallback slice is
empty even on non-empty input; see the counterexample). -/
theorem rerank_failure_fallback_amended
    (rerankCall : String → List String → Nat → Except Unit (List (Nat × ℚ)))
    (q : String) (chunks : List VectorSearch.Chunk) (top_k : Nat)
    (hne : chunks ≠ [])
    (herr : rerankCall q (chunks.map VectorSearch.Chunk.exact_text)
      (min top_k (chunks.map VectorSearch.Chunk.exact_text).length) = .error ()) :
    VectorSearch.rerank_with_cohere true rerankCall q chunks top_k
      = chunks.take (top_k * 2) ∧
    (VectorSearch.rerank_with_cohere true rerankCall q chunks top_k).length
      = min (top_k * 2) chunks.length ∧
    (1 ≤ top_k →
      VectorSearch.rerank_with_cohere true rerankCall q chunks top_k ≠ []) := by
  have hcond : ¬((true = false) ∨ chunks = []) := by
    simp [hne]
  have hred : VectorSearch.rerank_with_cohere true rerankCall q chunks top_k
      = chunks.take (top_k * 2) := by
    unfold VectorSearch.rerank_with_cohere
    rw [if_neg hcond, herr]
  refine ⟨hred, ?_, ?_⟩
  · rw [hred, List.length_take]
  · intro htk
    rw [hred]
    apply List.ne_nil_of_length_pos
    rw [List.length_take]
    have := List.length_pos.mpr hne
    omega

/-- Witness for the amended C8 theorem with a concretely failing rerank
call. -/
theorem rerank_failure_fallback_amended_witness :
    ([mkChunk "t" 1 none] : List VectorSearch.Chunk) ≠ [] ∧
    rerankFail "q" (([mkChunk "t" 1 none] : List VectorSearch.Chunk).map
        VectorSearch.Chunk.exact_text)
      (min 2 (([mkChunk "t" 1 none] : List VectorSearch.Chunk).map
        VectorSearch.Chunk.exact_text).length) = .error () ∧
    (VectorSearch.rerank_with_cohere true rerankFail "q" [mkChunk "t" 1 none] 2
      = ([mkChunk "t" 1 none] : List VectorSearch.Chunk).take (2 * 2) ∧
    (VectorSearch.rerank_with_cohere true rerankFail "q" [mkChunk "t" 1 none] 2).length
      = min (2 * 2) ([mkChunk "t" 1 none] : List VectorSearch.Chunk).length ∧
    (1 ≤ 2 →
      VectorSearch.rerank_with_cohere true rerankFail "q" [mkChunk "t" 1 none] 2 ≠ [])) :=
  ⟨by decide, rfl,
    rerank_failure_fallback_amended rerankFail "q" [mkChunk "t" 1 none] 2
      (by decide) rfl⟩

/-- **C8 (counterexample).**  With `top_k = 0` and a non-empty merged
input, a failing rerank call yields the empty fallback `merged[:0]` —
the claimed "non-empty whenever the merged input is non-empty" is false
at `top_k = 0`. -/
theorem rerank_failure_fallback_cex :
    ([mkChunk "t" 1 none] : List VectorSearch.Chunk) ≠ [] ∧
    VectorSearch.rerank_with_cohere true rerankFail "q" [mkChunk "t" 1 none] 0 = [] :=
  ⟨by decide, rfl⟩

/-! ### The missing batched query-mode embedding (C4) -/

/-- **C4.**  `VectorSearch.search` invokes the embedder attribute
`embed_queries` to batch-embed the expanded query set in one call, but
the `CohereEmbedder` class defines no such attribute — the lookup is
outside the class's method set, so every `search()` call raises
`AttributeError` before any embedding happens.  The document-mode half
of the claim does hold: `embed_documents` submits sequential sub-batches
of at most 96 non-empty texts whose concatenation is the input. -/
theorem search_batch_embed_attribute_missing :
    CohereUtils.searchBatchEmbedAttr ∉ CohereUtils.cohereEmbedderMethods ∧
    ∀ texts : List String,
      (∀ b ∈ CohereUtils.embedDocumentBatches texts, b.length ≤ 96 ∧ b ≠ []) ∧
      (CohereUtils.embedDocumentBatches texts).flatten = texts := by
  refine ⟨by decide, fun texts => ?_⟩
  have key : ∀ fuel l, l.length ≤ fuel →
      (∀ b ∈ CohereUtils.batchSplit 96 fuel l, b.length ≤ 96 ∧ b ≠ []) ∧
      (CohereUtils.batchSplit 96 fuel l).flatten = l := by
    intro fuel
    induction fuel with
    | zero =>
      intro l hl
      have hnil : l = [] := List.length_eq_zero.mp (Nat.le_zero.mp hl)
      subst hnil
      simp [CohereUtils.batchSplit]
    | succ n ih =>
      intro l hl
      cases l with
      | nil => simp [CohereUtils.batchSplit]
      | cons x xs =>
        have hstep : CohereUtils.batchSplit 96 (n + 1) (x :: xs)
            = (x :: xs).take 96 :: CohereUtils.batchSplit 96 n ((x :: xs).drop 96) := rfl
        have hlen : ((x :: xs).drop 96).length ≤ n := by
          simp only [List.length_drop, List.length_cons] at hl ⊢
          omega
        obtain ⟨ih1, ih2⟩ := ih _ hlen
        constructor
        · intro b hb
          rw [hstep] at hb
          rcases List.mem_cons.mp hb with hbt | hb'
          · subst hbt
            constructor
            · rw [List.length_take]
              omega
            · simp [List.take_cons]
          · exact ih1 b hb'
        · rw [hstep, List.flatten_cons, ih2, List.take_append_drop]
  exact key texts.length texts (le_refl _)
